import Mathlib

/-!
Verification development for the `autoreload` cog
(`src/autoreload/autoreload.py`): a debounced file-watcher that reloads a
bot extension ("cog") when files under its directory change.

The embedding covers, in order:
  * the glob/path pattern matching used by the watchdog
    `PatternMatchingEventHandler` (Python `fnmatch` component matching and
    `PurePosixPath.match`, applied case-insensitively as watchdog does by
    default),
  * the debounce-timer semantics of `EventHandler.on_modified`
    (`threading.Timer`: cancel any referenced timer, arm a fresh one),
  * the notification logic of `EventHandler.reload` together with a model
    of the external `pagify` text splitter,
  * the registry operations of the `AutoReload` cog
    (`_add`, `_del`, `load`, `unload`, `reload`).
-/

namespace AutoReloadSpec

/-! ### Glob component matching (model of Python `fnmatch.fnmatchcase`)

`fnmatch` is the standard-library facility backing watchdog's pattern
matching; it is external to the repository, so it is modelled from its
documented semantics: `*` matches any sequence, `?` any single character,
`[seq]` a character from the set, `[!seq]` a character outside the set,
where a set lists literal characters and inclusive ranges `a-b`; a leading
`]` (after the optional `!`) is literal, a trailing `-` is literal, and a
`[` with no closing `]` is a literal `[`. -/

/-- One item of a character class: a literal character or an inclusive
range. -/
inductive ClassItem where
  | single (c : Char)
  | range (lo hi : Char)
deriving Repr, DecidableEq

/-- Does a character match one class item? -/
def classItemMatch (c : Char) : ClassItem → Bool
  | .single d => c = d
  | .range lo hi => decide (lo ≤ c) && decide (c ≤ hi)

/-- Scan the body of a character class up to the closing `]`; returns the
collected characters and the remainder after the `]`, or `none` when the
class is unterminated. -/
def scanClass : List Char → Option (List Char × List Char)
  | [] => none
  | c :: cs =>
    if c = ']' then some ([], cs)
    else
      match scanClass cs with
      | some (st, r) => some (c :: st, r)
      | none => none

/-- Interpret the scanned body of a class as literal items and ranges
(`a-b`); a trailing `-` is a literal. -/
def interpItems : List Char → List ClassItem
  | a :: '-' :: b :: rest => .range a b :: interpItems rest
  | a :: rest => .single a :: interpItems rest
  | [] => []

/-- Strip the optional negation marker `!` at the head of a class body. -/
def stripBang (cs : List Char) : Bool × List Char :=
  match cs with
  | '!' :: t => (true, t)
  | _ => (false, cs)

/-- Scan a class body where a leading `]` is a literal member. -/
def classBody (cs : List Char) : Option (List Char × List Char) :=
  match cs with
  | ']' :: t =>
    match scanClass t with
    | some (st, r) => some (']' :: st, r)
    | none => none
  | _ => scanClass cs

/-- Parse a character class (the text after `[`): optional negation `!`,
then a body where a leading `]` is literal, up to the closing `]`.
Returns the negation flag, the items and the remaining pattern text. -/
def parseClass (cs : List Char) : Option (Bool × List ClassItem × List Char) :=
  match classBody (stripBang cs).2 with
  | some (st, r) => some ((stripBang cs).1, interpItems st, r)
  | none => none

/-- A glob pattern token. -/
inductive GlobTok where
  | star
  | anyChar
  | lit (c : Char)
  | cls (neg : Bool) (items : List ClassItem)
deriving Repr, DecidableEq

/-- Tokenize a glob pattern with explicit fuel (each step consumes at
least one character, so the pattern's length is enough fuel): `*`, `?`,
character classes, literals; an unterminated `[` is a literal. Fuel
keeps the recursion structural so that the kernel can evaluate it. -/
def tokenizeF : Nat → List Char → List GlobTok
  | 0, _ => []
  | _ + 1, [] => []
  | fuel + 1, '*' :: ps => .star :: tokenizeF fuel ps
  | fuel + 1, '?' :: ps => .anyChar :: tokenizeF fuel ps
  | fuel + 1, '[' :: ps =>
    match parseClass ps with
    | some (neg, items, rest) => .cls neg items :: tokenizeF fuel rest
    | none => .lit '[' :: tokenizeF fuel ps
  | fuel + 1, c :: ps => .lit c :: tokenizeF fuel ps

/-- Tokenize a glob pattern. -/
def tokenize (cs : List Char) : List GlobTok := tokenizeF cs.length cs

/-- Does `f` accept some suffix of the string (including the string
itself and the empty suffix)?  This is how `*` searches. -/
def suffixAny (f : List Char → Bool) : List Char → Bool
  | [] => f []
  | c :: s => f (c :: s) || suffixAny f s

/-- Match a token list against a character list (the whole string, as
`fnmatchcase` anchors the pattern at both ends): `*` consumes any number
of characters, `?` exactly one, a literal or class exactly one matching
character. -/
def globMatch : List GlobTok → List Char → Bool
  | [] => fun s => s.isEmpty
  | .star :: ps => suffixAny (globMatch ps)
  | .anyChar :: ps => fun s =>
    match s with
    | [] => false
    | _ :: s' => globMatch ps s'
  | .lit c :: ps => fun s =>
    match s with
    | [] => false
    | d :: s' => (d = c) && globMatch ps s'
  | .cls neg items :: ps => fun s =>
    match s with
    | [] => false
    | d :: s' => (items.any (classItemMatch d) != neg) && globMatch ps s'

/-- Model of `fnmatch.fnmatchcase name pat`: does `name` match the glob
pattern `pat`? -/
def fnmatchCase (name pat : List Char) : Bool :=
  globMatch (tokenize pat) name

/-! ### Path matching

Model of watchdog's `PatternMatchingEventHandler` matching pipeline
(`watchdog.utils.patterns.match_any_paths` → `_match_path` →
`PurePosixPath.match`), external collaborators of the repository,
modelled from their documented semantics. The handler is constructed
with the default `case_sensitive=False`, so `_match_path` lowercases
both the path and the patterns before matching, and the repository
passes no ignore patterns. -/

/-- Lowercase every character, as `str.lower()` applied by
`_match_path` when matching case-insensitively. -/
def toLowerL (cs : List Char) : List Char := cs.map Char.toLower

/-- Split on `/`, keeping empty components. -/
def splitSlashAux : List Char → List Char → List (List Char)
  | [], acc => [acc.reverse]
  | c :: rest, acc =>
    if c = '/' then acc.reverse :: splitSlashAux rest []
    else splitSlashAux rest (c :: acc)

def splitSlash (cs : List Char) : List (List Char) := splitSlashAux cs []

/-- Path components as `PurePosixPath` parses them: empty and `.`
components are dropped. -/
def rawComponents (cs : List Char) : List (List Char) :=
  (splitSlash cs).filter (fun p => !(p = [] ∨ p = ['.'] : Bool))

def isAbsL (cs : List Char) : Bool := cs.head? = some '/'

/-- The parsed parts of a path, with the root `/` as its own leading
part, as `PurePosixPath.parts` reports it. -/
def pathParts (cs : List Char) : List (List Char) :=
  (if isAbsL cs then [['/']] else []) ++ rawComponents cs

/-- Model of CPython `PurePosixPath.match`: a relative pattern is
matched component-wise from the right (`fnmatch` per component, the path
may have extra leading components); an absolute pattern must match the
whole path. CPython raises `ValueError` on a pattern with no
components; the model returns `false` there and the theorems below
exclude that case. -/
def purePathMatch (pat path : List Char) : Bool :=
  let patComps := rawComponents pat
  if patComps = [] then false
  else if isAbsL pat then
    isAbsL path && (patComps.length == (rawComponents path).length) &&
      ((patComps.reverse.zip (rawComponents path).reverse).all
        (fun pr => fnmatchCase pr.2 pr.1))
  else
    (patComps.length ≤ (pathParts path).length : Bool) &&
      ((patComps.reverse.zip (pathParts path).reverse).all
        (fun pr => fnmatchCase pr.2 pr.1))

/-- Model of watchdog `_match_path` with `case_sensitive=False` and no
exclude patterns, folded over the pattern list as `match_any_paths`
does: some pattern must match the lowercased path. -/
def matchPathCI (patterns : List String) (path : String) : Bool :=
  patterns.any (fun pat => purePathMatch (toLowerL pat.data) (toLowerL path.data))

/-- The base name of a changed file, as the spec speaks of it: the last
path component (`PurePosixPath.name`). -/
def basenameOf (cs : List Char) : List Char :=
  (rawComponents cs).getLastD []

/-- The kind of a watchdog filesystem event. -/
inductive EventType where
  | created
  | modified
  | deleted
  | moved
  | closedEv
  | openedEv
deriving Repr, DecidableEq

/-- A raw watchdog filesystem event as delivered to a handler. -/
structure FSEvent where
  srcPath : String
  destPath : Option String
  isDir : Bool
  etype : EventType
deriving Repr, DecidableEq

/-- The paths watchdog `PatternMatchingEventHandler.dispatch` collects
from an event: `dest_path` when present, then `src_path`. -/
def eventPaths (e : FSEvent) : List String :=
  (match e.destPath with
   | some d => [d]
   | none => []) ++ [e.srcPath]

/-- Does `PatternMatchingEventHandler.dispatch` consider the event's
paths to match the configured patterns? -/
def dispatchMatches (patterns : List String) (e : FSEvent) : Bool :=
  (eventPaths e).any (matchPathCI patterns)

/-! ### Debounce timer semantics (`EventHandler.on_modified`)

`on_modified` cancels the `threading.Timer` stored in `self._debounce`
(swallowing the `AttributeError` of the very first event) and arms a
fresh timer whose callback `reload_debounced` posts the reload coroutine
onto the bot's event loop with `loop.call_soon_threadsafe(ensure_future,
self.reload())`.  Time is modelled as natural-number instants; a timer
armed at instant `t` with delay `wait` is due at `t + wait`, and
`Timer.cancel` succeeds exactly on a timer that has not yet fired. -/

/-- The callback carried by a debounce timer. `reload_debounced` always
posts the reload onto the scheduler; `inlineCall` represents running the
reload directly on the timer thread, which the code never constructs. -/
inductive TimerCallback where
  | postToScheduler (cogName : String)
  | inlineCall (cogName : String)
deriving Repr, DecidableEq

/-- An armed `threading.Timer`: its absolute expiry instant and its
callback. -/
structure DTimer where
  fireAt : Nat
  cb : TimerCallback
deriving Repr, DecidableEq

/-- The timers of one handler: the armed, uncancelled, unfired timers,
and the handler's `_debounce` reference (the last timer it created, if
any — possibly one that already fired). -/
structure TimerSys where
  live : List DTimer
  ref : Option DTimer
deriving Repr, DecidableEq

/-- A handler starts with no timer and no `_debounce` attribute. -/
def TimerSys.init : TimerSys := ⟨[], none⟩

/-- `EventHandler.on_modified` at instant `t`: cancel the referenced
timer if it is still armed, then create, start and store a fresh
`Timer(self.wait, reload_debounced)`. -/
def onModified (cogName : String) (wait t : Nat) (s : TimerSys) : TimerSys :=
  let live1 :=
    match s.ref with
    | some tm => s.live.erase tm
    | none => s.live
  let fresh : DTimer := ⟨t + wait, .postToScheduler cogName⟩
  { live := live1 ++ [fresh], ref := some fresh }

/-- Deliver one qualifying modification event at instant `t`: every live
timer already due at `t` has fired (it can no longer be cancelled), then
`on_modified` runs.  Returns the new state and the timers that fired. -/
def stepEvent (cogName : String) (wait t : Nat) (s : TimerSys) :
    TimerSys × List DTimer :=
  let fired := s.live.filter (fun tm => decide (tm.fireAt ≤ t))
  let remaining := s.live.filter (fun tm => decide (t < tm.fireAt))
  (onModified cogName wait t { live := remaining, ref := s.ref }, fired)

/-- Run a burst of qualifying modification instants through the handler;
after the last event every remaining live timer eventually fires.
Returns the final state and all fired timers in firing order. -/
def processEvents (cogName : String) (wait : Nat) (s : TimerSys) :
    List Nat → TimerSys × List DTimer
  | [] => ({ live := [], ref := s.ref }, s.live)
  | t :: rest =>
    let p := stepEvent cogName wait t s
    let q := processEvents cogName wait p.1 rest
    (q.1, p.2 ++ q.2)

/-- One atomic occurrence in a handler's life: a qualifying event is
delivered, or an armed timer expires. -/
inductive HStep where
  | ev (wait t : Nat)
  | expire (tm : DTimer)
deriving Repr, DecidableEq

/-- Apply one occurrence to the timer state. -/
def applyStep (cogName : String) (s : TimerSys) : HStep → TimerSys
  | .ev wait t => onModified cogName wait t s
  | .expire tm => { s with live := s.live.erase tm }

/-- Replay a whole history from the initial state. -/
def runSteps (cogName : String) (steps : List HStep) : TimerSys :=
  steps.foldl (applyStep cogName) TimerSys.init

/-- The composed behaviour of watchdog dispatch and the repository's
`EventHandler` for one raw event at instant `t`: directory events are
dropped (`ignore_directories=True`), non-matching events are dropped,
and of the per-type hooks only `on_modified` is overridden — every
other event type falls through to an inherited no-op. -/
def handlerDispatch (cogName : String) (patterns : List String) (wait t : Nat)
    (e : FSEvent) (s : TimerSys) : TimerSys :=
  if e.isDir then s
  else if dispatchMatches patterns e then
    match e.etype with
    | .modified => onModified cogName wait t s
    | _ => s
  else s

/-! ### Reload notification (`EventHandler.reload`)

`reload` snapshots `bot._last_exception`, calls `Core._reload`, and then
either sends one "Reloaded" message, or one "failed to reload" message
followed — only when the snapshot differs from the new
`bot._last_exception` — by the exception text split by the external
`pagify` utility into code-fenced chunks. -/

/-- The cut position `pagify` uses on an over-long text: the right-most
newline position in `[1, 1984)`, or `1984` when the window holds no
newline. -/
def pagifyCut (cs : List Char) : Nat :=
  match (List.range 1984).reverse.find?
      (fun i => decide (1 ≤ i) && decide (cs.getD i ' ' = '\n')) with
  | some i => i
  | none => 1984

/-- Modelled from the spec: the external `pagify` collaborator
(`redbot.core.utils.chat_formatting.pagify`, called with
`shorten_by=16` and its defaults `delims=["\n"]` and
`page_length=2000`).  Per its contract, text longer than
`2000 - 16 = 1984` characters is split into chunks of at most 1984
characters, cutting at the right-most newline in `[1, 1984)` when one
exists, and chunks that are entirely whitespace are dropped. -/
def pagify1984 (cs : List Char) : List (List Char) :=
  if _h : cs.length ≤ 1984 then
    if cs.any (fun c => !c.isWhitespace) then [cs] else []
  else
    (if (cs.take (pagifyCut cs)).any (fun c => !c.isWhitespace)
      then [cs.take (pagifyCut cs)] else []) ++
      pagify1984 (cs.drop (pagifyCut cs))
termination_by cs.length
decreasing_by
  simp only [List.length_drop]
  have h1 : 1 ≤ pagifyCut cs := by
    unfold pagifyCut
    split
    · rename_i i hfind
      have hp := List.find?_some hfind
      simp only [Bool.and_eq_true, decide_eq_true_eq] at hp
      exact hp.1
    · omega
  omega

/-- What `EventHandler.reload` observes: the process-wide
`bot._last_exception` before and after `Core._reload`, the per-cog
success flag `result[0]`, and whether a notification sink (`logto`) is
configured. -/
structure ReloadObs where
  lastExcBefore : String
  lastExcAfter : String
  ok : Bool
  hasLogto : Bool
deriving Repr, DecidableEq

/-- The messages `EventHandler.reload` sends to the sink, in order:
on success one "Reloaded" message; on failure one "failed to reload"
message, followed by code-fenced pages of the captured exception text
only when the snapshot of `bot._last_exception` changed across the
reload.  Without a sink nothing is sent. -/
def reloadMessages (cogName : String) (o : ReloadObs) : List String :=
  if o.ok then
    if o.hasLogto then ["Reloaded `" ++ cogName ++ "`"] else []
  else
    if o.hasLogto then
      ("`" ++ cogName ++ "` failed to reload") ::
        (if o.lastExcBefore ≠ o.lastExcAfter then
          (pagify1984 o.lastExcAfter.data).map
            (fun p => "```" ++ String.mk p ++ "```")
        else [])
    else []

/-- The sink's message-size limit (Discord messages hold at most 2000
characters). -/
def sinkLimit : Nat := 2000

/-! ### The registry (`AutoReload` cog)

`AutoReload` owns a persisted configuration (defaults `logto=None`,
`wait=5`, `patterns=["*.py"]`, `cogs=[]`) and an in-memory map
`self.watch` of cog name to running `CogWatchdog`.  The external
resolver `bot.cog_mgr.find_cog` and user lookup `bot.get_user` are
modelled as function-valued parameters. -/

/-- What the resolver returns for a cog identifier: the cog's canonical
name and its root path (`submodule_search_locations[0]`). -/
structure CogInfo where
  name : String
  path : String
deriving Repr, DecidableEq

/-- The persisted global configuration. -/
structure ConfigData where
  logto : Option Nat
  wait : Nat
  patterns : List String
  cogs : List String
deriving Repr, DecidableEq

/-- A running watch session (`CogWatchdog` plus its `EventHandler`),
with the parameters captured when `_add` constructed it. -/
structure Session where
  cogName : String
  path : String
  wait : Nat
  logto : Option Nat
  patterns : List String
deriving Repr, DecidableEq

/-- The cog's state: persisted configuration plus the in-memory watch
map (insertion-ordered association list, keys unique). -/
structure ARState where
  config : ConfigData
  watch : List (String × Session)
deriving Repr, DecidableEq

/-- External collaborators: the cog resolver and the user lookup. -/
structure BotEnv where
  findCog : String → Option CogInfo
  getUser : Nat → Option Nat

/-- Lifecycle actions a registry operation performs on sessions. -/
inductive Action where
  | started (sess : Session)
  | stopped (sess : Session)
deriving Repr, DecidableEq

/-- The pattern normalization in `AutoReload._add`: an empty persisted
pattern list becomes the explicit wildcard list (`patterns.append("*")`
on the local copy). -/
def normalizePatterns (patterns : List String) : List String :=
  if patterns.isEmpty then patterns ++ ["*"] else patterns

/-- `AutoReload._add(cog_name)`: resolve the identifier; on failure or
when the resolved name is already watched, change nothing and return a
falsy value; otherwise persist the name in `config.cogs` (if absent),
construct a `CogWatchdog` from the current global configuration, start
it, record it, and return `True`.  The `Bool` is the truthiness of the
Python return value (`True` or an implicit `None`). -/
def addCog (env : BotEnv) (s : ARState) (cogName : String) :
    ARState × Bool × List Action :=
  match env.findCog cogName with
  | none => (s, false, [])
  | some cog =>
    if (s.watch.map Prod.fst).contains cog.name then (s, false, [])
    else
      let cogs1 :=
        if s.config.cogs.contains cog.name then s.config.cogs
        else s.config.cogs ++ [cog.name]
      let sess : Session :=
        { cogName := cog.name
          path := cog.path
          wait := s.config.wait
          logto :=
            match s.config.logto with
            | some uid => env.getUser uid
            | none => none
          patterns := normalizePatterns s.config.patterns }
      ({ config := { s.config with cogs := cogs1 }
         watch := s.watch ++ [(cog.name, sess)] },
       true, [.started sess])

/-- `AutoReload._del(cog_name)`: when the name is not watched, change
nothing and return a falsy value; otherwise remove it from the
persisted `config.cogs` (`list.remove` — `none` models the `ValueError`
it raises when the name is absent there), stop the session, drop the
map entry and return `True`. -/
def delCog (s : ARState) (cogName : String) :
    Option (ARState × Bool × List Action) :=
  match s.watch.lookup cogName with
  | none => some (s, false, [])
  | some sess =>
    if s.config.cogs.contains cogName then
      some ({ config := { s.config with cogs := s.config.cogs.erase cogName }
              watch := s.watch.filter (fun p => p.1 ≠ cogName) },
            true, [.stopped sess])
    else none

/-- `AutoReload.unload`: stop every session and clear the map. -/
def unloadAll (s : ARState) : ARState × List Action :=
  ({ s with watch := [] }, s.watch.map (fun p => .stopped p.2))

/-- `AutoReload.load`: `_add` every identifier in the persisted
`config.cogs` snapshot, in order. -/
def loadAll (env : BotEnv) (s : ARState) : ARState × List Action :=
  s.config.cogs.foldl
    (fun acc c =>
      let r := addCog env acc.1 c
      (r.1, acc.2 ++ r.2.2))
    (s, [])

/-- `AutoReload.reload`: `unload` (stop everything) then `load`
(re-add every persisted identifier, re-reading the configuration). -/
def reloadAll (env : BotEnv) (s : ARState) : ARState × List Action :=
  let u := unloadAll s
  let l := loadAll env u.1
  (l.1, u.2 ++ l.2)

/-- The debounce invariant: a handler holds no armed timer, or exactly
the one its `_debounce` attribute references. -/
def goodState (s : TimerSys) : Prop :=
  s.live = [] ∨ ∃ tm, s.ref = some tm ∧ s.live = [tm]

/-! ## Sanity checks of the matcher models against Python behaviour -/

example : fnmatchCase "bar.py".data "*.py".data = true := by decide
example : fnmatchCase "bar.pyc".data "*.py".data = false := by decide
example : fnmatchCase "a".data "[!b]".data = true := by decide
example : fnmatchCase "b".data "[ab]".data = true := by decide
example : fnmatchCase "c".data "[a-b]".data = false := by decide
example : fnmatchCase "a-b".data "a-b".data = true := by decide
example : fnmatchCase "xy".data "x?".data = true := by decide
example : purePathMatch "*.py".data "/a/b/c.py".data = true := by decide
example : purePathMatch "a?.py".data "/x/ab.py".data = true := by decide
example : purePathMatch "x/*.py".data "/a/b/c.py".data = false := by decide
example : purePathMatch "b/*.py".data "/a/b/c.py".data = true := by decide
example : matchPathCI ["*.PY"] "/A/B.py" = true := by decide
example : matchPathCI ["*.py"] "/a/b.txt" = false := by decide

/-! ## Debounce timer: helper lemmas -/

theorem goodState_init : goodState TimerSys.init := Or.inl rfl

theorem onModified_eq (cog : String) (w t : Nat) (s : TimerSys)
    (h : goodState s) :
    onModified cog w t s =
      { live := [⟨t + w, .postToScheduler cog⟩],
        ref := some ⟨t + w, .postToScheduler cog⟩ } := by
  unfold onModified
  rcases h with h | ⟨tm, href, hlive⟩
  · rcases hr : s.ref with _ | tm <;> simp [h]
  · rw [href, hlive]
    simp

theorem goodState_applyStep (cog : String) (s : TimerSys) (st : HStep)
    (h : goodState s) : goodState (applyStep cog s st) := by
  cases st with
  | ev w t =>
    right
    rw [show applyStep cog s (.ev w t) = onModified cog w t s from rfl,
      onModified_eq cog w t s h]
    exact ⟨⟨t + w, .postToScheduler cog⟩, rfl, rfl⟩
  | expire tm =>
    rcases h with h | ⟨tm', href, hlive⟩
    · left; simp [applyStep, h]
    · by_cases he : tm' = tm
      · left; simp [applyStep, hlive, he]
      · right
        refine ⟨tm', href, ?_⟩
        simp [applyStep, hlive, List.erase_cons, he]

theorem goodState_foldl (cog : String) : ∀ (steps : List HStep) (s : TimerSys),
    goodState s → goodState (steps.foldl (applyStep cog) s) := by
  intro steps
  induction steps with
  | nil => intro s h; exact h
  | cons st rest ih =>
    intro s h
    exact ih _ (goodState_applyStep cog s st h)

theorem goodState_runSteps (cog : String) (steps : List HStep) :
    goodState (runSteps cog steps) :=
  goodState_foldl cog steps TimerSys.init goodState_init

theorem stepEvent_quiet (cog : String) (w t : Nat) (s : TimerSys)
    (hq : ∀ tm ∈ s.live, t < tm.fireAt) (h : goodState s) :
    stepEvent cog w t s =
      ({ live := [⟨t + w, .postToScheduler cog⟩],
         ref := some ⟨t + w, .postToScheduler cog⟩ }, []) := by
  have hfired : s.live.filter (fun tm => decide (tm.fireAt ≤ t)) = [] := by
    rw [List.filter_eq_nil_iff]
    intro tm hmem
    simp only [decide_eq_true_eq]
    exact Nat.not_le.mpr (hq tm hmem)
  have hrem : s.live.filter (fun tm => decide (t < tm.fireAt)) = s.live := by
    rw [List.filter_eq_self]
    intro tm hmem
    exact decide_eq_true (hq tm hmem)
  simp only [stepEvent]
  rw [hfired, hrem]
  show (onModified cog w t s, []) = _
  rw [onModified_eq cog w t s h]

theorem processEvents_nil (cog : String) (w : Nat) (s : TimerSys) :
    processEvents cog w s [] = ({ live := [], ref := s.ref }, s.live) := rfl

theorem processEvents_cons (cog : String) (w t : Nat) (rest : List Nat)
    (s : TimerSys) :
    processEvents cog w s (t :: rest) =
      ((processEvents cog w (stepEvent cog w t s).1 rest).1,
       (stepEvent cog w t s).2 ++
         (processEvents cog w (stepEvent cog w t s).1 rest).2) := rfl

theorem processEvents_burst (cog : String) (w : Nat) :
    ∀ (rest : List Nat) (t : Nat) (s : TimerSys),
      (∀ tm ∈ s.live, t < tm.fireAt) →
      goodState s →
      List.Chain' (fun a b => a ≤ b ∧ b < a + w) (t :: rest) →
      processEvents cog w s (t :: rest) =
        ({ live := [], ref := some ⟨rest.getLastD t + w, .postToScheduler cog⟩ },
         [⟨rest.getLastD t + w, .postToScheduler cog⟩]) := by
  intro rest
  induction rest with
  | nil =>
    intro t s hq h _
    rw [processEvents_cons, stepEvent_quiet cog w t s hq h]
    dsimp only
    rw [processEvents_nil]
    simp [List.getLastD]
  | cons t' rest' ih =>
    intro t s hq h hchain
    rw [List.chain'_cons] at hchain
    obtain ⟨⟨hle, hlt⟩, hchain'⟩ := hchain
    rw [processEvents_cons, stepEvent_quiet cog w t s hq h]
    dsimp only
    rw [ih t' { live := [⟨t + w, .postToScheduler cog⟩],
                ref := some ⟨t + w, .postToScheduler cog⟩ }
        (by intro tm hm; simp at hm; rw [hm]; exact hlt)
        (Or.inr ⟨⟨t + w, .postToScheduler cog⟩, rfl, rfl⟩) hchain']
    rw [List.getLastD_cons]
    simp

theorem onModified_cb (cog : String) (w t : Nat) (s : TimerSys)
    (hs : ∀ tm ∈ s.live, tm.cb = .postToScheduler cog) :
    ∀ tm ∈ (onModified cog w t s).live, tm.cb = .postToScheduler cog := by
  unfold onModified
  intro tm hm
  rcases hr : s.ref with _ | tm0 <;> rw [hr] at hm <;> simp at hm
  · rcases hm with hm | rfl
    · exact hs _ hm
    · rfl
  · rcases hm with hm | rfl
    · exact hs _ (List.mem_of_mem_erase hm)
    · rfl

theorem processEvents_cb (cog : String) (w : Nat) :
    ∀ (ts : List Nat) (s : TimerSys),
      (∀ tm ∈ s.live, tm.cb = .postToScheduler cog) →
      (∀ tm ∈ (processEvents cog w s ts).2, tm.cb = .postToScheduler cog) ∧
      (∀ tm ∈ (processEvents cog w s ts).1.live,
        tm.cb = .postToScheduler cog) := by
  intro ts
  induction ts with
  | nil =>
    intro s hs
    simp only [processEvents]
    exact ⟨hs, by intro tm hm; simp at hm⟩
  | cons t rest ih =>
    intro s hs
    have hstep : ∀ tm ∈ (stepEvent cog w t s).1.live,
        tm.cb = .postToScheduler cog := by
      simp only [stepEvent]
      apply onModified_cb
      intro tm hm
      exact hs _ (List.mem_of_mem_filter hm)
    have hfired : ∀ tm ∈ (stepEvent cog w t s).2,
        tm.cb = .postToScheduler cog := by
      simp only [stepEvent]
      intro tm hm
      exact hs _ (List.mem_of_mem_filter hm)
    have hrec := ih (stepEvent cog w t s).1 hstep
    constructor
    · intro tm hm
      simp only [processEvents] at hm
      rw [List.mem_append] at hm
      rcases hm with hm | hm
      · exact hfired _ hm
      · exact hrec.1 _ hm
    · intro tm hm
      simp only [processEvents] at hm
      exact hrec.2 _ hm

/-! ## Claim theorems: debounce behaviour -/

/-- Claim C1: for every handler and burst of `N ≥ 1` qualifying events in
which each event arrives less than the configured wait after the
previous one, exactly one reload action is triggered, due `wait`
seconds after the last event of the burst; and over any history the
handler holds at most one pending timer, each qualifying event
cancelling and replacing the pending timer rather than queueing a
second action. -/
theorem c1_burst_single_reload (cog : String) (w t : Nat) (rest : List Nat)
    (hchain : List.Chain' (fun a b => a ≤ b ∧ b < a + w) (t :: rest)) :
    processEvents cog w TimerSys.init (t :: rest) =
      ({ live := [], ref := some ⟨rest.getLastD t + w, .postToScheduler cog⟩ },
       [⟨rest.getLastD t + w, .postToScheduler cog⟩]) ∧
    ∀ steps : List HStep, (runSteps cog steps).live.length ≤ 1 := by
  constructor
  · exact processEvents_burst cog w rest t TimerSys.init
      (by intro tm hm; simp [TimerSys.init] at hm) goodState_init hchain
  · intro steps
    rcases goodState_runSteps cog steps with h | ⟨tm, _, hlive⟩
    · simp [h]
    · simp [hlive]

theorem c1_witness :
    processEvents "foo" 2 TimerSys.init [0, 1] =
      ({ live := [], ref := some ⟨3, .postToScheduler "foo"⟩ },
       [⟨3, .postToScheduler "foo"⟩]) ∧
    (runSteps "foo" [.ev 2 0, .ev 2 1]).live.length ≤ 1 :=
  ⟨(c1_burst_single_reload "foo" 2 0 [1] (by simp [List.chain'_cons])).1,
   (c1_burst_single_reload "foo" 2 0 [1] (by simp [List.chain'_cons])).2 [.ev 2 0, .ev 2 1]⟩

/-- Claim C2 fails as stated: a `created` event whose path matches the
configured patterns — relevant per the claim — causes no transition at
all, because the handler only overrides `on_modified` and the inherited
`on_created` hook is a no-op. -/
theorem c2_counterexample :
    dispatchMatches ["*.py"] ⟨"a.py", none, false, EventType.created⟩ = true ∧
    handlerDispatch "foo" ["*.py"] 5 0 ⟨"a.py", none, false, EventType.created⟩
        TimerSys.init = TimerSys.init := by
  decide

/-- Claim C2 (amended): an event is relevant when it is a non-directory
event whose path matches the configured patterns and whose type is
`modified`; a relevant event in the idle state arms the debounce timer
(idle to pending), while an event whose path matches no pattern or
whose type is not `modified` changes nothing. -/
theorem c2_dispatch (cogName : String) (patterns : List String) (w t : Nat)
    (e : FSEvent) (s : TimerSys) :
    (e.isDir = false → dispatchMatches patterns e = true →
      e.etype = EventType.modified →
      handlerDispatch cogName patterns w t e s = onModified cogName w t s ∧
      handlerDispatch cogName patterns w t e TimerSys.init =
        { live := [⟨t + w, .postToScheduler cogName⟩],
          ref := some ⟨t + w, .postToScheduler cogName⟩ }) ∧
    ((dispatchMatches patterns e = false ∨ e.etype ≠ EventType.modified) →
      handlerDispatch cogName patterns w t e s = s) := by
  constructor
  · intro hdir hmatch htype
    constructor
    · simp [handlerDispatch, hdir, hmatch, htype]
    · have h1 : handlerDispatch cogName patterns w t e TimerSys.init =
          onModified cogName w t TimerSys.init := by
        simp [handlerDispatch, hdir, hmatch, htype]
      rw [h1]
      exact onModified_eq cogName w t TimerSys.init goodState_init
  · intro hirr
    unfold handlerDispatch
    by_cases hd : e.isDir = true
    · rw [if_pos hd]
    · rw [if_neg hd]
      by_cases hmm : dispatchMatches patterns e = true
      · rw [if_pos hmm]
        rcases hirr with hm | ht
        · rw [hm] at hmm
          exact absurd hmm (by simp)
        · cases he : e.etype
          all_goals
            first
              | rfl
              | exact absurd he ht
      · rw [if_neg hmm]

theorem c2_witness :
    handlerDispatch "foo" ["*.py"] 5 3
        ⟨"/w/bar.py", none, false, EventType.modified⟩ TimerSys.init =
      { live := [⟨8, .postToScheduler "foo"⟩],
        ref := some ⟨8, .postToScheduler "foo"⟩ } :=
  ((c2_dispatch "foo" ["*.py"] 5 3 ⟨"/w/bar.py", none, false, .modified⟩
    TimerSys.init).1 rfl (by decide) rfl).2

/-- Claim C10: the expiry callback of every timer the handler arms —
whatever the configured wait, zero included — is the thread-safe
post-to-scheduler action built by `reload_debounced`
(`loop.call_soon_threadsafe(asyncio.ensure_future, self.reload())`);
every timer that fires therefore defers the reload to the scheduler and
never runs it inline on the timer or watcher thread. -/
theorem c10_defer_to_scheduler (cog : String) (w : Nat) (ts : List Nat)
    (s : TimerSys) (hs : ∀ tm ∈ s.live, tm.cb = .postToScheduler cog) :
    (∀ tm ∈ (processEvents cog w s ts).2, tm.cb = .postToScheduler cog) ∧
    (∀ tm ∈ (processEvents cog w s ts).1.live,
      tm.cb = .postToScheduler cog) ∧
    (∀ (t' : Nat) (s' : TimerSys),
      (onModified cog 0 t' s').ref = some ⟨t', .postToScheduler cog⟩) :=
  ⟨(processEvents_cb cog w ts s hs).1,
   (processEvents_cb cog w ts s hs).2,
   fun _ _ => rfl⟩

theorem c10_witness :
    (onModified "foo" 0 3 TimerSys.init).ref =
      some ⟨3, .postToScheduler "foo"⟩ :=
  (c10_defer_to_scheduler "foo" 0 [5] TimerSys.init
    (by intro tm hm; simp [TimerSys.init] at hm)).2.2 3 TimerSys.init

/-! ## Pattern matching: helper lemmas -/

theorem charOfNat_toNat_valid (m : Nat) (h1 : 97 ≤ m) (h2 : m ≤ 122) :
    (Char.ofNat m).toNat = m := by
  interval_cases m <;> decide

theorem toLower_eq_low {t : Char} (ht : t.toNat < 65) (c : Char) :
    Char.toLower c = t ↔ c = t := by
  constructor
  · intro h
    simp only [Char.toLower] at h
    split at h
    · rename_i hcond
      exfalso
      have h1 : 97 ≤ c.toNat + 32 := by omega
      have h2 : c.toNat + 32 ≤ 122 := by omega
      have h3 := charOfNat_toNat_valid (c.toNat + 32) h1 h2
      rw [h] at h3
      omega
    · exact h
  · intro h
    rw [h]
    simp only [Char.toLower]
    rw [if_neg]
    omega

theorem toLower_slash_iff (c : Char) : Char.toLower c = '/' ↔ c = '/' :=
  toLower_eq_low (by decide) c

theorem toLower_dot_iff (c : Char) : Char.toLower c = '.' ↔ c = '.' :=
  toLower_eq_low (by decide) c

theorem splitSlashAux_no_slash : ∀ (cs acc : List Char), '/' ∉ cs →
    splitSlashAux cs acc = [acc.reverse ++ cs] := by
  intro cs
  induction cs with
  | nil => intro acc _; simp [splitSlashAux]
  | cons c rest ih =>
    intro acc h
    simp only [List.mem_cons, not_or] at h
    obtain ⟨hc, hrest⟩ := h
    simp only [splitSlashAux]
    rw [if_neg (fun hh => hc hh.symm)]
    rw [ih (c :: acc) hrest]
    simp

theorem splitSlash_no_slash (cs : List Char) (h : '/' ∉ cs) :
    splitSlash cs = [cs] := by
  unfold splitSlash
  rw [splitSlashAux_no_slash cs [] h]
  simp

theorem splitSlashAux_slash (rest acc : List Char) :
    splitSlashAux ('/' :: rest) acc = acc.reverse :: splitSlashAux rest [] := by
  simp [splitSlashAux]

theorem splitSlashAux_cons (c : Char) (rest acc : List Char) (hc : c ≠ '/') :
    splitSlashAux (c :: rest) acc = splitSlashAux rest (c :: acc) := by
  simp [splitSlashAux, hc]

theorem splitSlashAux_lower : ∀ (cs acc : List Char),
    splitSlashAux (toLowerL cs) (toLowerL acc) =
      (splitSlashAux cs acc).map toLowerL := by
  intro cs
  induction cs with
  | nil =>
    intro acc
    simp [splitSlashAux, toLowerL, List.map_reverse]
  | cons c rest ih =>
    intro acc
    by_cases hc : c = '/'
    · subst hc
      rw [show toLowerL ('/' :: rest) = '/' :: toLowerL rest from by
        simp [toLowerL, show Char.toLower '/' = '/' from by decide]]
      rw [splitSlashAux_slash, splitSlashAux_slash, List.map_cons]
      congr 1
      · simp [toLowerL, List.map_reverse]
      · simpa [toLowerL] using ih []
    · have hc' : Char.toLower c ≠ '/' := fun hh => hc ((toLower_slash_iff c).mp hh)
      rw [show toLowerL (c :: rest) = Char.toLower c :: toLowerL rest from by
        simp [toLowerL]]
      rw [splitSlashAux_cons _ _ _ hc', splitSlashAux_cons _ _ _ hc]
      exact ih (c :: acc)

theorem splitSlash_lower (cs : List Char) :
    splitSlash (toLowerL cs) = (splitSlash cs).map toLowerL := by
  unfold splitSlash
  exact splitSlashAux_lower cs []

theorem toLowerL_eq_nil (p : List Char) : toLowerL p = [] ↔ p = [] := by
  simp [toLowerL]

theorem toLowerL_eq_dot (p : List Char) : toLowerL p = ['.'] ↔ p = ['.'] := by
  cases p with
  | nil => simp [toLowerL]
  | cons a q =>
    cases q with
    | nil =>
      simp only [toLowerL, List.map_cons, List.map_nil, List.cons.injEq,
        and_true]
      exact toLower_dot_iff a
    | cons b r => simp [toLowerL]

theorem rawComponents_lower (cs : List Char) :
    rawComponents (toLowerL cs) = (rawComponents cs).map toLowerL := by
  unfold rawComponents
  rw [splitSlash_lower, List.filter_map]
  congr 1
  apply List.filter_congr
  intro p _
  simp [Function.comp, toLowerL_eq_nil, toLowerL_eq_dot]

theorem isAbsL_lower_false (cs : List Char) (h : '/' ∉ cs) :
    isAbsL (toLowerL cs) = false := by
  cases cs with
  | nil => rfl
  | cons c rest =>
    have hc : c ≠ '/' := fun hh => h (hh ▸ List.mem_cons_self c rest)
    have hc' : Char.toLower c ≠ '/' := fun hh => hc ((toLower_slash_iff c).mp hh)
    simp [isAbsL, toLowerL, hc']

theorem getLastD_toLower : ∀ (l : List (List Char)) (d : List Char),
    (l.map toLowerL).getLastD (toLowerL d) = toLowerL (l.getLastD d) := by
  intro l
  induction l with
  | nil => intro d; rfl
  | cons a l ih =>
    intro d
    rw [List.map_cons, List.getLastD_cons, List.getLastD_cons]
    exact ih a

theorem purePathMatch_single (q P : List Char)
    (hq1 : rawComponents q = [q]) (hq2 : isAbsL q = false)
    (hP : rawComponents P ≠ []) :
    purePathMatch q P = fnmatchCase ((rawComponents P).getLastD []) q := by
  obtain ⟨dl, z, hdz⟩ : ∃ dl z, rawComponents P = dl ++ [z] :=
    ⟨(rawComponents P).dropLast, (rawComponents P).getLast hP,
      (List.dropLast_append_getLast hP).symm⟩
  have hparts : pathParts P =
      ((if isAbsL P then [['/']] else []) ++ dl) ++ [z] := by
    unfold pathParts
    rw [hdz, List.append_assoc]
  have hrev : (pathParts P).reverse =
      z :: ((if isAbsL P then [['/']] else []) ++ dl).reverse := by
    rw [hparts, List.reverse_append]
    simp
  have hlen : 1 ≤ (pathParts P).length := by
    rw [hparts]
    simp only [List.length_append, List.length_cons]
    omega
  have hlast : (rawComponents P).getLastD [] = z := by
    rw [hdz]
    simp
  unfold purePathMatch
  rw [hq1, hq2]
  rw [if_neg (by simp)]
  simp only [Bool.false_eq_true, if_false]
  rw [hrev, hlast]
  simp [hlen]

/-! ## Claim theorems: pattern matching -/

/-- Claim C3: when every configured pattern is separator-free (and
parseable: non-empty and not `.`), the matcher tests each glob pattern
against the changed file's base name, under the handler's case folding:
a file with at least one path component matches the pattern set exactly
when some pattern's glob accepts its base name. -/
theorem c3_basename_matching (patterns : List String) (path : String)
    (hpat : ∀ pat ∈ patterns, '/' ∉ pat.data ∧ pat.data ≠ [] ∧ pat.data ≠ ['.'])
    (hfile : rawComponents path.data ≠ []) :
    matchPathCI patterns path =
      patterns.any (fun pat =>
        fnmatchCase (toLowerL (basenameOf path.data)) (toLowerL pat.data)) := by
  unfold matchPathCI
  induction patterns with
  | nil => rfl
  | cons pat rest ih =>
    obtain ⟨h1, h2, h3⟩ := hpat pat (List.mem_cons_self pat rest)
    have hsl : '/' ∉ toLowerL pat.data := by
      intro hmem
      obtain ⟨c, hc, hlow⟩ := List.mem_map.mp hmem
      exact h1 ((toLower_slash_iff c).mp hlow ▸ hc)
    have hq1 : rawComponents (toLowerL pat.data) = [toLowerL pat.data] := by
      unfold rawComponents
      rw [splitSlash_no_slash _ hsl]
      simp [toLowerL_eq_nil, toLowerL_eq_dot, h2, h3]
    have hq2 : isAbsL (toLowerL pat.data) = false := isAbsL_lower_false _ h1
    have hP : rawComponents (toLowerL path.data) ≠ [] := by
      rw [rawComponents_lower]
      simp [hfile]
    have hone : purePathMatch (toLowerL pat.data) (toLowerL path.data) =
        fnmatchCase (toLowerL (basenameOf path.data)) (toLowerL pat.data) := by
      rw [purePathMatch_single _ _ hq1 hq2 hP, rawComponents_lower]
      unfold basenameOf
      rw [show ([] : List Char) = toLowerL [] from rfl, getLastD_toLower]
      rfl
    simp only [List.any_cons]
    rw [hone, ih (fun p hp => hpat p (List.mem_cons_of_mem pat hp))]

theorem c3_witness :
    matchPathCI ["*.py"] "/a/b.py" =
      (["*.py"] : List String).any (fun pat =>
        fnmatchCase (toLowerL (basenameOf "/a/b.py".data)) (toLowerL pat.data)) :=
  c3_basename_matching ["*.py"] "/a/b.py" (by decide) (by decide)

theorem globMatch_star (s : List Char) : globMatch [.star] s = true := by
  show suffixAny (globMatch []) s = true
  induction s with
  | nil => rfl
  | cons c s ih => simp [suffixAny, ih]

theorem fnmatch_star (s : List Char) : fnmatchCase s ['*'] = true := by
  show globMatch (tokenize ['*']) s = true
  exact globMatch_star s

/-- Claim C4: a session created while the configured pattern set is empty
matches every file: `_add` normalizes the empty set to the explicit
wildcard `["*"]`, matching with the normalized empty set coincides with
matching against `["*"]` on every path, and `["*"]` accepts every path
with at least one component — the empty set never behaves as "match
nothing". -/
theorem c4_empty_patterns_wildcard (path : String)
    (hfile : rawComponents path.data ≠ []) :
    normalizePatterns [] = ["*"] ∧
    matchPathCI (normalizePatterns []) path = matchPathCI ["*"] path ∧
    matchPathCI ["*"] path = true := by
  refine ⟨rfl, rfl, ?_⟩
  unfold matchPathCI
  simp only [List.any_cons, List.any_nil, Bool.or_false]
  have hP : rawComponents (toLowerL path.data) ≠ [] := by
    rw [rawComponents_lower]
    simp [hfile]
  rw [show toLowerL "*".data = ['*'] from by decide]
  rw [purePathMatch_single ['*'] (toLowerL path.data) (by decide) (by decide) hP]
  exact fnmatch_star _

theorem c4_witness :
    normalizePatterns [] = ["*"] ∧
    matchPathCI (normalizePatterns []) "/a/b.py" = matchPathCI ["*"] "/a/b.py" ∧
    matchPathCI ["*"] "/a/b.py" = true :=
  c4_empty_patterns_wildcard "/a/b.py" (by decide)

/-! ## Claim theorems: registry operations -/

/-- Claim C5: `add` returns a falsy value without raising when the
identifier does not resolve; it is a falsy no-op (state and sessions
untouched) when the resolved cog is already tracked; otherwise it
persists the cog's name in the stored configuration, creates and starts
a watch session for the resolved path built from the current global
configuration, records it in the registry map, and returns `True`. -/
theorem c5_add (env : BotEnv) (s : ARState) (cogName : String) :
    (env.findCog cogName = none → addCog env s cogName = (s, false, [])) ∧
    (∀ cog, env.findCog cogName = some cog →
      cog.name ∈ s.watch.map Prod.fst →
      addCog env s cogName = (s, false, [])) ∧
    (∀ cog, env.findCog cogName = some cog →
      cog.name ∉ s.watch.map Prod.fst →
      ∃ sess : Session,
        addCog env s cogName =
          ({ config := { s.config with
               cogs := if s.config.cogs.contains cog.name then s.config.cogs
                 else s.config.cogs ++ [cog.name] },
             watch := s.watch ++ [(cog.name, sess)] },
           true, [.started sess]) ∧
        sess.cogName = cog.name ∧
        sess.path = cog.path ∧
        sess.wait = s.config.wait ∧
        sess.patterns = normalizePatterns s.config.patterns ∧
        sess.logto =
          (match s.config.logto with
           | some uid => env.getUser uid
           | none => none) ∧
        cog.name ∈ (addCog env s cogName).1.config.cogs) := by
  refine ⟨?_, ?_, ?_⟩
  · intro h
    unfold addCog
    rw [h]
  · intro cog hres hmem
    unfold addCog
    rw [hres]
    dsimp only
    rw [if_pos (by simp [hmem])]
  · intro cog hres hmem
    refine ⟨⟨cog.name, cog.path, s.config.wait,
      (match s.config.logto with
       | some uid => env.getUser uid
       | none => none),
      normalizePatterns s.config.patterns⟩,
      ?_, rfl, rfl, rfl, rfl, rfl, ?_⟩
    · unfold addCog
      rw [hres]
      dsimp only
      rw [if_neg (by simp [hmem])]
    · unfold addCog
      rw [hres]
      dsimp only
      rw [if_neg (by simp [hmem])]
      by_cases hc : s.config.cogs.contains cog.name = true
      · simp only [hc, if_true]
        exact List.elem_iff.mp hc
      · simp only [hc, if_false]
        simp

theorem c5_witness :
    addCog
      ⟨fun c => if c = "mycog" then some ⟨"mycog", "/cogs/mycog"⟩ else none,
       fun _ => none⟩
      ⟨⟨none, 5, ["*.py"], []⟩, []⟩ "mycog" =
      (⟨⟨none, 5, ["*.py"], ["mycog"]⟩,
        [("mycog", ⟨"mycog", "/cogs/mycog", 5, none, ["*.py"]⟩)]⟩,
       true,
       [.started ⟨"mycog", "/cogs/mycog", 5, none, ["*.py"]⟩]) := by
  obtain ⟨sess, heq, hn, hp, hw, hpat, hlog, _⟩ :=
    (c5_add
      ⟨fun c => if c = "mycog" then some ⟨"mycog", "/cogs/mycog"⟩ else none,
       fun _ => none⟩
      ⟨⟨none, 5, ["*.py"], []⟩, []⟩ "mycog").2.2
      ⟨"mycog", "/cogs/mycog"⟩ (by decide) (by decide)
  have hsess : sess = ⟨"mycog", "/cogs/mycog", 5, none, ["*.py"]⟩ := by
    rcases sess with ⟨a, b, c, d, e⟩
    simp only at hn hp hw hpat hlog
    rw [hn, hp, hw, hpat, hlog]
    rfl
  rw [heq, hsess]
  rfl

/-- Claim C6: `remove` on an untracked identifier returns a falsy value
and leaves the registry map and persisted configuration unchanged; on a
tracked identifier it stops that session, removes the identifier from
both the in-memory map and the persisted list, and returns `True`. -/
theorem c6_remove (s : ARState) (cogName : String) :
    (s.watch.lookup cogName = none → delCog s cogName = some (s, false, [])) ∧
    (∀ sess, s.watch.lookup cogName = some sess →
      cogName ∈ s.config.cogs →
      delCog s cogName =
        some ({ config := { s.config with cogs := s.config.cogs.erase cogName },
                watch := s.watch.filter (fun p => p.1 ≠ cogName) },
              true, [.stopped sess]) ∧
      (∀ p ∈ s.watch.filter (fun p => p.1 ≠ cogName), p.1 ≠ cogName) ∧
      (s.config.cogs.Nodup → cogName ∉ s.config.cogs.erase cogName)) := by
  refine ⟨?_, ?_⟩
  · intro h
    unfold delCog
    rw [h]
  · intro sess hl hc
    refine ⟨?_, ?_, ?_⟩
    · unfold delCog
      rw [hl]
      dsimp only
      rw [if_pos (by simp [hc])]
    · intro p hp
      have := (List.mem_filter.mp hp).2
      simpa using this
    · intro hnd
      exact hnd.not_mem_erase

theorem c6_remove_witness :
    delCog ⟨⟨none, 5, ["*.py"], ["a"]⟩,
        [("a", ⟨"a", "/p/a", 5, none, ["*.py"]⟩)]⟩ "a" =
      some (⟨⟨none, 5, ["*.py"], []⟩, []⟩, true,
        [.stopped ⟨"a", "/p/a", 5, none, ["*.py"]⟩]) := by
  have h := (c6_remove ⟨⟨none, 5, ["*.py"], ["a"]⟩,
      [("a", ⟨"a", "/p/a", 5, none, ["*.py"]⟩)]⟩ "a").2
      ⟨"a", "/p/a", 5, none, ["*.py"]⟩ (by decide) (by decide)
  rw [h.1]
  rfl

theorem loadFold (env : BotEnv) (cfg : ConfigData) :
    ∀ (l : List String) (w : List (String × Session)) (acts : List Action),
      (∀ c ∈ l, ∃ info, env.findCog c = some info ∧ info.name = c) →
      (∀ c ∈ l, c ∈ cfg.cogs) →
      (∀ c ∈ l, c ∉ w.map Prod.fst) →
      l.Nodup →
      ((l.foldl (fun acc c =>
          let r := addCog env acc.1 c
          (r.1, acc.2 ++ r.2.2)) ((⟨cfg, w⟩ : ARState), acts)).1.config = cfg ∧
       (l.foldl (fun acc c =>
          let r := addCog env acc.1 c
          (r.1, acc.2 ++ r.2.2)) ((⟨cfg, w⟩ : ARState), acts)).1.watch.map Prod.fst =
         w.map Prod.fst ++ l ∧
       ∀ p ∈ (l.foldl (fun acc c =>
          let r := addCog env acc.1 c
          (r.1, acc.2 ++ r.2.2)) ((⟨cfg, w⟩ : ARState), acts)).1.watch,
         p ∈ w ∨
           (p.2.cogName = p.1 ∧ p.2.wait = cfg.wait ∧
            p.2.patterns = normalizePatterns cfg.patterns ∧
            p.2.logto =
              (match cfg.logto with
               | some uid => env.getUser uid
               | none => none))) := by
  intro l
  induction l with
  | nil =>
    intro w acts _ _ _ _
    exact ⟨rfl, by simp, fun p hp => Or.inl hp⟩
  | cons c l ih =>
    intro w acts hres hin hnotw hnd
    obtain ⟨info, hinfo, hname⟩ := hres c (List.mem_cons_self c l)
    have hmemf : info.name ∉ w.map Prod.fst := by
      rw [hname]
      exact hnotw c (List.mem_cons_self c l)
    have hcin : info.name ∈ cfg.cogs := by
      rw [hname]
      exact hin c (List.mem_cons_self c l)
    have haddq : addCog env ⟨cfg, w⟩ c =
        (⟨cfg, w ++ [(info.name, ⟨info.name, info.path, cfg.wait,
            (match cfg.logto with
             | some uid => env.getUser uid
             | none => none), normalizePatterns cfg.patterns⟩)]⟩,
         true,
         [.started ⟨info.name, info.path, cfg.wait,
            (match cfg.logto with
             | some uid => env.getUser uid
             | none => none), normalizePatterns cfg.patterns⟩]) := by
      unfold addCog
      rw [hinfo]
      dsimp only
      rw [if_neg (by simp [hmemf])]
      rw [if_pos (by simp [hcin])]
    simp only [List.foldl_cons]
    rw [haddq]
    dsimp only
    have hres' : ∀ c' ∈ l, ∃ info, env.findCog c' = some info ∧ info.name = c' :=
      fun c' hc' => hres c' (List.mem_cons_of_mem c hc')
    have hin' : ∀ c' ∈ l, c' ∈ cfg.cogs :=
      fun c' hc' => hin c' (List.mem_cons_of_mem c hc')
    have hnotw' : ∀ c' ∈ l, c' ∉ (w ++ [((info.name, ⟨info.name, info.path,
        cfg.wait,
        (match cfg.logto with
         | some uid => env.getUser uid
         | none => none), normalizePatterns cfg.patterns⟩) :
          String × Session)]).map Prod.fst := by
      intro c' hc'
      rw [List.map_append]
      intro hmem
      rcases List.mem_append.mp hmem with hmem | hmem
      · exact hnotw c' (List.mem_cons_of_mem c hc') hmem
      · simp only [List.map_cons, List.map_nil, List.mem_singleton] at hmem
        rw [hmem, hname] at hc'
        exact (List.nodup_cons.mp hnd).1 hc'
    have hnd' : l.Nodup := (List.nodup_cons.mp hnd).2
    obtain ⟨ih1, ih2, ih3⟩ := ih _ _ hres' hin' hnotw' hnd'
    refine ⟨ih1, ?_, ?_⟩
    · rw [ih2, List.map_append, hname]
      simp
    · intro p hp
      rcases ih3 p hp with hmem | hprops
      · rcases List.mem_append.mp hmem with hmem | hmem
        · exact Or.inl hmem
        · right
          simp only [List.mem_singleton] at hmem
          rw [hmem]
          exact ⟨rfl, rfl, rfl, rfl⟩
      · exact Or.inr hprops

/-- Claim C7: `reload` first stops every active session (`unload`), then
re-adds every identifier in the persisted configuration (`load`); each
re-created session takes its wait, notification target and patterns
from the persisted configuration at re-creation time, so sessions made
after a configuration change carry the new parameters. -/
theorem c7_reload_fresh_config (env : BotEnv) (s : ARState)
    (hres : ∀ c ∈ s.config.cogs, ∃ info, env.findCog c = some info ∧ info.name = c)
    (hnd : s.config.cogs.Nodup) :
    (unloadAll s).1.watch = [] ∧
    (unloadAll s).2 = s.watch.map (fun p => Action.stopped p.2) ∧
    (reloadAll env s).1.config = s.config ∧
    (reloadAll env s).1.watch.map Prod.fst = s.config.cogs ∧
    ∀ p ∈ (reloadAll env s).1.watch,
      p.2.wait = s.config.wait ∧
      p.2.patterns = normalizePatterns s.config.patterns ∧
      p.2.logto =
        (match s.config.logto with
         | some uid => env.getUser uid
         | none => none) := by
  have hfold := loadFold env s.config s.config.cogs [] []
    hres (fun c hc => hc) (by intro c _; simp) hnd
  refine ⟨rfl, rfl, ?_, ?_, ?_⟩
  · exact hfold.1
  · rw [show (reloadAll env s).1.watch =
      (loadAll env ⟨s.config, []⟩).1.watch from rfl]
    have h2 := hfold.2.1
    simpa using h2
  · intro p hp
    have hp' : p ∈ (loadAll env ⟨s.config, []⟩).1.watch := hp
    rcases hfold.2.2 p hp' with hmem | hprops
    · exact absurd hmem (by simp)
    · exact ⟨hprops.2.1, hprops.2.2.1, hprops.2.2.2⟩

theorem c7_witness :
    (unloadAll ⟨⟨none, 10, ["*.py"], ["a"]⟩,
        [("a", ⟨"a", "/p/a", 2, none, ["*.py"]⟩)]⟩).1.watch = [] ∧
    (unloadAll ⟨⟨none, 10, ["*.py"], ["a"]⟩,
        [("a", ⟨"a", "/p/a", 2, none, ["*.py"]⟩)]⟩).2 =
      [.stopped ⟨"a", "/p/a", 2, none, ["*.py"]⟩] ∧
    (reloadAll
        ⟨fun c => if c = "a" then some ⟨"a", "/p/a"⟩ else none, fun _ => none⟩
        ⟨⟨none, 10, ["*.py"], ["a"]⟩,
          [("a", ⟨"a", "/p/a", 2, none, ["*.py"]⟩)]⟩).1.config =
      ⟨none, 10, ["*.py"], ["a"]⟩ ∧
    (reloadAll
        ⟨fun c => if c = "a" then some ⟨"a", "/p/a"⟩ else none, fun _ => none⟩
        ⟨⟨none, 10, ["*.py"], ["a"]⟩,
          [("a", ⟨"a", "/p/a", 2, none, ["*.py"]⟩)]⟩).1.watch.map Prod.fst =
      ["a"] ∧
    ∀ p ∈ (reloadAll
        ⟨fun c => if c = "a" then some ⟨"a", "/p/a"⟩ else none, fun _ => none⟩
        ⟨⟨none, 10, ["*.py"], ["a"]⟩,
          [("a", ⟨"a", "/p/a", 2, none, ["*.py"]⟩)]⟩).1.watch,
      p.2.wait = 10 := by
  have h := c7_reload_fresh_config
    ⟨fun c => if c = "a" then some ⟨"a", "/p/a"⟩ else none, fun _ => none⟩
    ⟨⟨none, 10, ["*.py"], ["a"]⟩, [("a", ⟨"a", "/p/a", 2, none, ["*.py"]⟩)]⟩
    (by
      intro c hc
      simp only [List.mem_singleton] at hc
      exact ⟨⟨"a", "/p/a"⟩, by rw [hc]; exact ⟨rfl, rfl⟩⟩)
    (by simp)
  exact ⟨h.1, h.2.1, h.2.2.1, h.2.2.2.1,
    fun p hp => (h.2.2.2.2 p hp).1⟩

/-! ## Claim theorems: reload notification -/

theorem pagifyCut_le (cs : List Char) : pagifyCut cs ≤ 1984 := by
  unfold pagifyCut
  split
  · rename_i i hfind
    have hmem := List.mem_of_find?_eq_some hfind
    rw [List.mem_reverse, List.mem_range] at hmem
    omega
  · omega

theorem pagifyCut_pos (cs : List Char) : 1 ≤ pagifyCut cs := by
  unfold pagifyCut
  split
  · rename_i i hfind
    have hp := List.find?_some hfind
    simp only [Bool.and_eq_true, decide_eq_true_eq] at hp
    exact hp.1
  · omega

theorem pagify1984_page_le : ∀ (n : Nat) (cs : List Char), cs.length ≤ n →
    ∀ p ∈ pagify1984 cs, p.length ≤ 1984 := by
  intro n
  induction n with
  | zero =>
    intro cs hle p hp
    have hz : cs.length ≤ 1984 := by omega
    rw [pagify1984, dif_pos hz] at hp
    split at hp
    · rw [List.mem_singleton] at hp
      rw [hp]
      exact hz
    · exact absurd hp (by simp)
  | succ n ih =>
    intro cs hle p hp
    rw [pagify1984] at hp
    by_cases hsmall : cs.length ≤ 1984
    · rw [dif_pos hsmall] at hp
      split at hp
      · rw [List.mem_singleton] at hp
        rw [hp]
        exact hsmall
      · exact absurd hp (by simp)
    · rw [dif_neg hsmall] at hp
      rw [List.mem_append] at hp
      rcases hp with hp | hp
      · split at hp
        · rw [List.mem_singleton] at hp
          rw [hp, List.length_take]
          have := pagifyCut_le cs
          omega
        · exact absurd hp (by simp)
      · refine ih (cs.drop (pagifyCut cs)) ?_ p hp
        rw [List.length_drop]
        have := pagifyCut_pos cs
        omega

/-- Claim C9: with a notification sink configured, the handler emits
exactly one status message per reload — "Reloaded" on success, "failed
to reload" on failure; on failure the captured exception text follows
only when the process-wide last-exception value observed before the
reload differs from the one observed after it, split into code-fenced
chunks that each stay within the sink's 2000-character limit. -/
theorem c9_notify (cog : String) (o : ReloadObs) (hlog : o.hasLogto = true) :
    (o.ok = true → reloadMessages cog o = ["Reloaded `" ++ cog ++ "`"]) ∧
    (o.ok = false →
      ∃ pages,
        reloadMessages cog o =
          ("`" ++ cog ++ "` failed to reload") :: pages ∧
        (o.lastExcBefore = o.lastExcAfter → pages = []) ∧
        (pages ≠ [] → o.lastExcBefore ≠ o.lastExcAfter) ∧
        (∀ m ∈ pages, m.length ≤ sinkLimit)) := by
  constructor
  · intro hok
    unfold reloadMessages
    rw [hok, hlog]
    simp
  · intro hok
    refine ⟨(if o.lastExcBefore ≠ o.lastExcAfter then
        (pagify1984 o.lastExcAfter.data).map
          (fun p => "```" ++ String.mk p ++ "```")
      else []), ?_, ?_, ?_, ?_⟩
    · unfold reloadMessages
      rw [hok, hlog]
      simp
    · intro heq
      rw [if_neg (by simp [heq])]
    · intro hne
      by_cases heq : o.lastExcBefore = o.lastExcAfter
      · exact absurd (by rw [if_neg (by simp [heq])]) hne
      · exact heq
    · intro m hm
      by_cases hne : o.lastExcBefore ≠ o.lastExcAfter
      · rw [if_pos hne] at hm
        obtain ⟨p, hp, hmp⟩ := List.mem_map.mp hm
        have hlen := pagify1984_page_le o.lastExcAfter.data.length
          o.lastExcAfter.data le_rfl p hp
        rw [← hmp]
        have hmk : (String.mk p).length = p.length := rfl
        rw [String.length_append, String.length_append, hmk]
        unfold sinkLimit
        have h3 : ("```" : String).length = 3 := rfl
        rw [h3]
        omega
      · rw [if_neg hne] at hm
        exact absurd hm (by simp)

theorem c9_witness :
    reloadMessages "foo" ⟨"boom", "boom", false, true⟩ =
      ["`foo` failed to reload"] := by
  obtain ⟨pages, hmsgs, hpempty, _, _⟩ :=
    (c9_notify "foo" ⟨"boom", "boom", false, true⟩ rfl).2 rfl
  rw [hmsgs, hpempty rfl]
  rfl

end AutoReloadSpec
